import Mathlib

/-!
Verification development for the MFA fixed-encoding driver (`src/python/examples/fixed.py`)
and the decomposition / assignment / encoding / serialization engine it drives.

The driver script is the only source file of the repository; the `diy` and `mfa`
modules it calls are external binary bindings.  Following the specification, the
behaviour of those bindings (DomainArgs validation, the contiguous assigner, the
Cartesian decomposer, the fixed-degree least-squares encoder, error evaluation and
block serialization) is modelled here from the spec's words; every such definition
carries a doc comment starting with `Modelled from the spec:`.  The driver's own
control flow (the order of the foreach stages, the concrete configuration values,
the extra `f` field) is embedded directly from `fixed.py`.

All arithmetic is exact (ℚ); floating-point tolerance statements become exact
equalities or inequalities over ℚ.
-/

namespace MFA

/-- Modelled from the spec: the `mfa.DomainArgs` configuration object (its
implementation is outside `src/`).  Fields follow the configuration surface of
spec §6 plus the `f` field that the driver assigns at `fixed.py` line 25. -/
structure DomainArgs where
  dom_dim : ℕ
  pt_dim : ℕ
  weighted : ℕ
  n : ℚ
  multiblock : Bool
  verbose : ℕ
  f : List ℚ
  geom_p : List ℕ
  vars_p : List (List ℕ)
  ndom_pts : List ℕ
  geom_nctrl_pts : List ℕ
  vars_nctrl_pts : List (List ℕ)
  min : List ℚ
  max : List ℚ
  s : List ℚ
deriving DecidableEq

/-- Modelled from the spec: the DomainArgs shape invariant of spec §3/§7 — the
length of every per-dimension vector equals dom_dim, the number of per-variable
vectors equals pt_dim − dom_dim, and s has length pt_dim.  The `f` field is not
among the recognized options and is deliberately not inspected. -/
def DomainArgs.valid (a : DomainArgs) : Bool :=
  (a.ndom_pts.length == a.dom_dim) &&
  (a.geom_p.length == a.dom_dim) &&
  (a.vars_p.length == a.pt_dim - a.dom_dim) &&
  (a.vars_p.all fun v => v.length == a.dom_dim) &&
  (a.geom_nctrl_pts.length == a.dom_dim) &&
  (a.vars_nctrl_pts.length == a.pt_dim - a.dom_dim) &&
  (a.vars_nctrl_pts.all fun v => v.length == a.dom_dim) &&
  (a.min.length == a.dom_dim) &&
  (a.max.length == a.dom_dim) &&
  (a.s.length == a.pt_dim)

/-- The DomainArgs shape invariant as a proposition (spec §3, claim C9). -/
def validOpts (a : DomainArgs) : Prop :=
  a.ndom_pts.length = a.dom_dim ∧
  a.geom_p.length = a.dom_dim ∧
  a.vars_p.length = a.pt_dim - a.dom_dim ∧
  (∀ v ∈ a.vars_p, v.length = a.dom_dim) ∧
  a.geom_nctrl_pts.length = a.dom_dim ∧
  a.vars_nctrl_pts.length = a.pt_dim - a.dom_dim ∧
  (∀ v ∈ a.vars_nctrl_pts, v.length = a.dom_dim) ∧
  a.min.length = a.dom_dim ∧
  a.max.length = a.dom_dim ∧
  a.s.length = a.pt_dim

/-- Modelled from the spec: a tensor-product spline model (degree, knot vector,
control points, per-control-point weights) of spec §3, one per variable. -/
structure SplineModel where
  degree : ℕ
  knots : List ℚ
  ctrl : List ℚ
  weights : List ℚ
deriving DecidableEq

instance : Inhabited SplineModel := ⟨⟨0, [], [], []⟩⟩

/-- Cox–de Boor B-spline basis function over a knot list (division by a zero
knot span yields 0 in ℚ, matching the standard 0/0 := 0 convention). -/
def bspBasis (knots : List ℚ) : ℕ → ℕ → ℚ → ℚ
  | i, 0, x => if knots.getD i 0 ≤ x ∧ x < knots.getD (i + 1) 0 then 1 else 0
  | i, p + 1, x =>
      (x - knots.getD i 0) / (knots.getD (i + p + 1) 0 - knots.getD i 0) *
        bspBasis knots i p x +
      (knots.getD (i + p + 2) 0 - x) / (knots.getD (i + p + 2) 0 - knots.getD (i + 1) 0) *
        bspBasis knots (i + 1) p x

/-- Evaluation of a spline model at parameter x: sum of basis functions times
control points. -/
def SplineModel.eval (m : SplineModel) (x : ℚ) : ℚ :=
  ((List.range m.ctrl.length).map fun i => bspBasis m.knots i m.degree x * m.ctrl.getD i 0).sum

/-- Modelled from the spec: the `mfa.Block` unit of work of spec §3 — domain
subregion, input SampleSet, geometry model, one model per science variable and
a derived error field populated only by error evaluation. -/
structure Block where
  dom_dim : ℕ
  pt_dim : ℕ
  mn : List ℚ
  mx : List ℚ
  input : List (List ℚ × List ℚ)
  geom : SplineModel
  vars : List SplineModel
  errVal : Option ℚ
deriving DecidableEq

/-- Modelled from the spec: the serialized state blob of spec §4.7 — domain,
all spline models, and SampleSet metadata (here: the sample count). -/
structure BlockBlob where
  dom_dim : ℕ
  pt_dim : ℕ
  mn : List ℚ
  mx : List ℚ
  geom : SplineModel
  vars : List SplineModel
  nsamples : ℕ
deriving DecidableEq

/-- Modelled from the spec: `mfa.save_block` — captures domain, all spline
models and sample metadata (spec §4.7). -/
def save_block (b : Block) : BlockBlob :=
  ⟨b.dom_dim, b.pt_dim, b.mn, b.mx, b.geom, b.vars, b.input.length⟩

/-- Modelled from the spec: `mfa.load_block` — restores a Block from a blob;
the SampleSet itself is not persisted (only its metadata), the models are. -/
def load_block (blob : BlockBlob) : Block :=
  ⟨blob.dom_dim, blob.pt_dim, blob.mn, blob.mx, [], blob.geom, blob.vars, none⟩

/-- Modelled from the spec: `diy.write_blocks` — persists every block keyed by
its global ID, independent of rank (spec §4.3, §4.7). -/
def write_blocks (blocks : List (ℕ × Block)) : List (ℕ × BlockBlob) :=
  blocks.map fun gb => (gb.1, save_block gb.2)

/-- Modelled from the spec: reading one block back from the persisted container
by global ID (any rank may perform the read, the file is keyed by ID only). -/
def read_block (file : List (ℕ × BlockBlob)) (gid : ℕ) : Option Block :=
  (file.lookup gid).map load_block

/-- Evaluation of the block's science-variable model v at parameter x. -/
def blockEval (b : Block) (v : ℕ) (x : ℚ) : ℚ :=
  (b.vars.getD v default).eval x

/-- Knot-interval (cell) index of parameter u in a uniform partition of [0,1]
into k cells, clamped at the right end. -/
def cell (k : ℕ) (u : ℚ) : ℕ := min (k - 1) ⌊u * (k : ℚ)⌋₊

/-- Values of the samples falling into cell i of the k-cell partition. -/
def groupVals (k : ℕ) (s : List (ℚ × ℚ)) (i : ℕ) : List ℚ :=
  (s.filter fun uy => cell k uy.1 == i).map Prod.snd

/-- Arithmetic mean of a list of values (0 for the empty list). -/
def mean (ys : List ℚ) : ℚ := ys.sum / (ys.length : ℚ)

/-- Sum of squared residuals of a value list about a constant c. -/
def sse (ys : List ℚ) (c : ℚ) : ℚ := (ys.map fun y => (y - c) ^ 2).sum

/-- Modelled from the spec: the least-squares control points of the fixed-degree
encoder (spec §4.5), in the degree-0 tensor-factor instance — each control point
minimizes the squared residuals of the samples in its knot cell, so it is the
cell mean. -/
def fitCtrl (k : ℕ) (s : List (ℚ × ℚ)) : List ℚ :=
  (List.range k).map fun i => mean (groupVals k s i)

/-- Aggregate squared L2 error of the fitted model with k control points over
the sample set (spec §4.6: compare model against the original samples). -/
def l2errSq (k : ℕ) (s : List (ℚ × ℚ)) : ℚ :=
  (s.map fun uy => (uy.2 - (fitCtrl k s).getD (cell k uy.1) 0) ^ 2).sum

/-- Clamped uniform knot vector with k spans over [0,1]. -/
def uniformKnots (k : ℕ) : List ℚ :=
  (List.range (k + 1)).map fun i => (i : ℚ) / (k : ℚ)

/-- Modelled from the spec: the spline model produced by the encoder for one
variable — uniform knots derived from the control-point count, least-squares
control points, all weights 1 when weighting is disabled (spec §4.5). -/
def fitVar (k : ℕ) (s : List (ℚ × ℚ)) : SplineModel :=
  ⟨0, uniformKnots k, fitCtrl k s, List.replicate k 1⟩

/-- Encoding failure taxonomy (spec §7): an under- or exactly-determined system
is a configuration error of the encode step. -/
inductive EncErr where
  | underdetermined
deriving DecidableEq

/-- Modelled from the spec: the encoder's feasibility check — the control-point
count must be strictly less than the input sample count in every dimension, for
the geometry and for every science variable (spec §4.5, Scenario C). -/
def encodeOK (a : DomainArgs) : Bool :=
  ((a.geom_nctrl_pts.zip a.ndom_pts).all fun p => decide (p.1 < p.2)) &&
  (a.vars_nctrl_pts.all fun v => (v.zip a.ndom_pts).all fun p => decide (p.1 < p.2))

/-- The encoder feasibility condition as a proposition: control-point count
strictly below sample count in every dimension, for geometry and every variable. -/
def ctrlLtSamples (a : DomainArgs) : Prop :=
  (∀ p ∈ a.geom_nctrl_pts.zip a.ndom_pts, p.1 < p.2) ∧
  ∀ v ∈ a.vars_nctrl_pts, ∀ p ∈ v.zip a.ndom_pts, p.1 < p.2

/-- Normalized 1-D parameter and value of each input sample for variable v
(first domain coordinate mapped affinely onto [0,1]). -/
def blockSamples1 (b : Block) (v : ℕ) : List (ℚ × ℚ) :=
  b.input.map fun sv =>
    ((sv.1.getD 0 0 - b.mn.getD 0 0) / (b.mx.getD 0 0 - b.mn.getD 0 0), sv.2.getD v 0)

/-- Control-point count of variable v in dimension 0. -/
def varNctrl (a : DomainArgs) (v : ℕ) : ℕ := (a.vars_nctrl_pts.getD v []).getD 0 1

/-- Modelled from the spec: `b.fixed_encode_block(cp, d_args)` (`fixed.py` line
64; the encoder itself is outside `src/`).  It first checks that the system is
over-determined — raising `EncodingError` before any control point is computed
otherwise — then solves the per-variable least-squares fit and stores one model
per geometry/variable on the block (spec §4.5). -/
def fixed_encode_block (a : DomainArgs) (b : Block) : Except EncErr Block :=
  if encodeOK a then
    Except.ok { b with
      geom := fitVar (a.geom_nctrl_pts.getD 0 1)
        (b.input.map fun sv =>
          ((sv.1.getD 0 0 - b.mn.getD 0 0) / (b.mx.getD 0 0 - b.mn.getD 0 0),
            sv.1.getD 0 0)),
      vars := (List.range (a.pt_dim - a.dom_dim)).map fun v =>
        fitVar (varNctrl a v) (blockSamples1 b v) }
  else Except.error EncErr.underdetermined

/-- Uniformly spaced sample coordinates (linspace) over [mn, mx]. -/
def linspace (mn mx : ℚ) (n : ℕ) : List ℚ :=
  (List.range n).map fun i => mn + (i : ℚ) * ((mx - mn) / ((n : ℚ) - 1))

/-- Cartesian grid of sample coordinates from per-dimension (mn, mx, count). -/
def gridCoords : List (ℚ × ℚ × ℕ) → List (List ℚ)
  | [] => [[]]
  | ax :: rest => (linspace ax.1 ax.2.1 ax.2.2).flatMap fun x =>
      (gridCoords rest).map fun c => x :: c

/-- Modelled from the spec: `b.generate_analytical_data(cp, fun, d_args)` —
samples a closed-form function fn on a regular grid of ndom_pts per dimension
inside the block's region, producing pt_dim − dom_dim values per point scaled
by s; populates the block's SampleSet (spec §4.4; the driver's noise level is
0.0, so noise is not modelled). -/
def generate (fn : List ℚ → ℚ) (a : DomainArgs) (b : Block) : Block :=
  let coords := gridCoords (((b.mn.zip b.mx).zip a.ndom_pts).map fun p => (p.1.1, p.1.2, p.2))
  let pts := coords.map fun c =>
    (c, (List.range (a.pt_dim - a.dom_dim)).map fun v => a.s.getD v 1 * fn c)
  { b with input := pts }

/-- Aggregate squared-residual error of all of a block's variable models against
its stored samples (spec §4.6 aggregate L2 statistic, kept squared in ℚ). -/
def blockSSE (b : Block) : ℚ :=
  ((List.range b.vars.length).map fun v =>
    ((blockSamples1 b v).map fun uy => ((b.vars.getD v default).eval uy.1 - uy.2) ^ 2).sum).sum

/-- Modelled from the spec: `b.range_error(cp, 1, True, True)` (`fixed.py` line
68) — evaluates each model against the stored samples and annotates only the
block's error field; the spline models are not mutated (spec §4.6). -/
def rangeError (b : Block) : Block := { b with errVal := some (blockSSE b) }

/-- Modelled from the spec: the per-rank block counts of the contiguous
assigner — nblocks/size blocks per rank, the first nblocks % size ranks
receiving one extra (spec §4.2). -/
def counts (size nblocks : ℕ) : List ℕ :=
  (List.range size).map fun r => nblocks / size + if r < nblocks % size then 1 else 0

/-- Contiguous chunks of global IDs, one chunk per rank, starting at s. -/
def chunksFrom (s : ℕ) : List ℕ → List (List ℕ)
  | [] => []
  | c :: cs => List.range' s c :: chunksFrom (s + c) cs

/-- Modelled from the spec: `diy.ContiguousAssigner(w.size, nblocks)` — the
ordered contiguous global-ID ranges owned by each rank (spec §4.2). -/
def chunks (size nblocks : ℕ) : List (List ℕ) :=
  chunksFrom 0 (counts size nblocks)

/-- The ordered list of global block IDs owned by a rank under the contiguous
assigner. -/
def gidsOfRank (size nblocks r : ℕ) : List ℕ := (chunks size nblocks).getD r []

/-- Lower edge of grid cell j in a dimension split into k equal blocks. -/
def coreLo (mn mx : ℚ) (k j : ℕ) : ℚ := mn + (j : ℚ) * ((mx - mn) / (k : ℚ))

/-- Volume of the core of the decomposed block with multi-index idx. -/
def coreVol {D : ℕ} (mn mx : Fin D → ℚ) (k : Fin D → ℕ)
    (idx : (d : Fin D) → Fin (k d)) : ℚ :=
  ∏ d, (coreLo (mn d) (mx d) (k d) ((idx d : ℕ) + 1) -
        coreLo (mn d) (mx d) (k d) (idx d))

/-- Volume of the full domain box. -/
def domainVol {D : ℕ} (mn mx : Fin D → ℚ) : ℚ := ∏ d, (mx d - mn d)

/-- Two decomposed cores overlap when their open boxes intersect in every
dimension. -/
def coresOverlap {D : ℕ} (mn mx : Fin D → ℚ) (k : Fin D → ℕ)
    (i j : (d : Fin D) → Fin (k d)) : Prop :=
  ∀ d, max (coreLo (mn d) (mx d) (k d) (i d)) (coreLo (mn d) (mx d) (k d) (j d)) <
       min (coreLo (mn d) (mx d) (k d) ((i d : ℕ) + 1))
           (coreLo (mn d) (mx d) (k d) ((j d : ℕ) + 1))

/-- Modelled from the spec: `d.decompose(w.rank, a, add_block)` (`fixed.py`
line 56) calls the block-construction callback once for each global ID the
assigner gives to the local rank; this list records those invocations in
order (spec §4.1). -/
def decomposeInvocations (size nblocks rank : ℕ) : List ℕ :=
  gidsOfRank size nblocks rank

/-- Pipeline stages of the driver, in source order (`fixed.py` lines 56-75). -/
inductive Stage where
  | reg
  | gen
  | enc
  | chkErr
  | pr
  | sv
deriving DecidableEq

/-- The event trace of the driver: block registration during decomposition,
then one foreach pass per stage over all locally owned blocks, then
serialization — exactly the statement order of `fixed.py`. -/
def driverTrace (gids : List ℕ) : List (ℕ × Stage) :=
  [Stage.reg, Stage.gen, Stage.enc, Stage.chkErr, Stage.pr, Stage.sv].flatMap
    fun st => gids.map fun g => (g, st)

/-- Position of each stage in the driver's statement order. -/
def stIdx : Stage → ℕ
  | Stage.reg => 0
  | Stage.gen => 1
  | Stage.enc => 2
  | Stage.chkErr => 3
  | Stage.pr => 4
  | Stage.sv => 5

/-- Pipeline-level failure taxonomy (spec §7): configuration errors are fatal
and reported before any block is constructed. -/
inductive PErr where
  | configError
deriving DecidableEq

/-- Whether an Except value is a success. -/
def isOkE {ε α : Type} : Except ε α → Bool
  | Except.ok _ => true
  | Except.error _ => false

/-- A fresh block covering the configured domain, as built by the add_block
callback (`fixed.py` lines 41-47: b.init with empty data and no models). -/
def mkBlock (a : DomainArgs) : Block :=
  ⟨a.dom_dim, a.pt_dim, a.min, a.max, [], default, [], none⟩

/-- Modelled from the spec: the driver pipeline of `fixed.py` — configuration
validation first (a ConfigurationError is fatal before any block is
constructed), then for each locally owned block: generate, encode, error
evaluation; per-block encode failures are isolated as Except values. -/
def runPipeline (fn : List ℚ → ℚ) (size nblocks rank : ℕ) (a : DomainArgs) :
    Except PErr (List (ℕ × Except EncErr Block)) :=
  if a.valid then
    Except.ok ((gidsOfRank size nblocks rank).map fun g =>
      (g, (fixed_encode_block a (generate fn a (mkBlock a))).map rangeError))
  else Except.error PErr.configError

/-- The exact rational value of the IEEE-754 double `math.pi` used by the
driver. -/
def mathPi : ℚ := 884279719003555 / 281474976710656

/-- The exact configuration the driver assembles (`fixed.py` lines 8-33):
2-D domain, one science variable, geometry degree 1, variable degree 4,
100 samples and 11 variable control points per dimension, domain
[−4π, 4π]², scaling s = [10, 1, 1], plus the `f` field set to [1, 1]. -/
def driverArgs : DomainArgs :=
  { dom_dim := 2
    pt_dim := 3
    weighted := 0
    n := 0
    multiblock := false
    verbose := 1
    f := [1, 1]
    geom_p := [1, 1]
    vars_p := [[4, 4]]
    ndom_pts := [100, 100]
    geom_nctrl_pts := [2, 2]
    vars_nctrl_pts := [[11, 11]]
    min := [-4 * mathPi, -4 * mathPi]
    max := [4 * mathPi, 4 * mathPi]
    s := [10, 1, 1] }

/-- A six-sample 1-D dataset whose parameters are uniformly spaced over [0,1]
(exactly linspace 0 1 6, the driver's regular-grid sampling), with values
consistent with sampling a smooth function; used to compare fits with 2 and
with 3 control points.  With uniformly spaced samples the uniform knot vector
is the spec's applicable knot policy. -/
def exSamples : List (ℚ × ℚ) :=
  [(0, 0), (1/5, 0), (2/5, 0), (3/5, 1), (4/5, 1), (1, 1)]

/-- Prediction of a linear fit: the spline (or any basis) expansion
∑ i, φ i u · c i evaluated at parameter u, for a basis φ with k functions and
control points c.  The parameter type is arbitrary, so this covers
tensor-product bases over multi-dimensional domain coordinates. -/
def predict {α : Type} (φ : ℕ → α → ℚ) (k : ℕ) (c : List ℚ) (u : α) : ℚ :=
  ((List.range k).map fun i => φ i u * c.getD i 0).sum

/-- Modelled from the spec: the encoder's least-squares objective (spec §4.5)
— the sum of squared residuals between the spline evaluated at each input
sample's domain coordinate (via basis-function weights) and the sample's true
value. -/
def residSq {α : Type} (φ : ℕ → α → ℚ) (k : ℕ) (c : List ℚ) (s : List (α × ℚ)) : ℚ :=
  (s.map fun uy => (uy.2 - predict φ k c uy.1) ^ 2).sum

/-- Modelled from the spec: the encoder's solution contract (spec §4.5) —
control points minimizing the sum of squared residuals over the sample set. -/
def IsLSQ {α : Type} (φ : ℕ → α → ℚ) (k : ℕ) (c : List ℚ) (s : List (α × ℚ)) : Prop :=
  ∀ c' : List ℚ, residSq φ k c s ≤ residSq φ k c' s

/-- The degree-0 B-spline basis on the clamped uniform knot vector with k
spans: the indicator of the i-th knot cell (right end clamped into the last
cell). -/
def pcBasis (k : ℕ) (i : ℕ) (u : ℚ) : ℚ := if cell k u = i then 1 else 0

instance (a : DomainArgs) : Decidable (ctrlLtSamples a) := by
  unfold ctrlLtSamples; infer_instance

/-- A deliberately infeasible encode configuration: 200 control points against
100 samples per dimension. -/
def badEncArgs : DomainArgs := { driverArgs with vars_nctrl_pts := [[200, 200]] }

/-- A deliberately malformed configuration: the scaling vector s is empty
although pt_dim = 3. -/
def badArgs : DomainArgs := { driverArgs with s := [] }

/-- A minimal feasible configuration: 1-D domain, one variable, 2 samples and
1 control point. -/
def smallArgs : DomainArgs :=
  { dom_dim := 1, pt_dim := 2, weighted := 0, n := 0, multiblock := false, verbose := 0,
    f := [1], geom_p := [1], vars_p := [[0]], ndom_pts := [2], geom_nctrl_pts := [1],
    vars_nctrl_pts := [[1]], min := [0], max := [1], s := [1, 1] }

/-- A small concrete block with two input samples. -/
def smallBlock : Block :=
  ⟨1, 2, [0], [1], [([0], [0]), ([1], [1])], default, [], none⟩

/-- A small concrete block used in the serialization round-trip witness. -/
def blk0 : Block := ⟨2, 3, [0, 0], [1, 1], [], default, [], none⟩

/-! ## Generic list-sum and least-squares lemmas -/

theorem sum_fiber {α : Type} (l : List α) (f : α → ℕ) (g : α → ℚ) (m : ℕ)
    (h : ∀ x ∈ l, f x < m) :
    (∑ i in Finset.range m, ((l.filter fun x => f x == i).map g).sum) = (l.map g).sum := by
  induction l with
  | nil => simp
  | cons a t ih =>
    have ha : f a < m := h a (List.mem_cons_self a t)
    have ht : ∀ x ∈ t, f x < m := fun x hx => h x (List.mem_cons_of_mem a hx)
    have step : ∀ i ∈ Finset.range m,
        (((a :: t).filter fun x => f x == i).map g).sum
          = (if f a = i then g a else 0) + ((t.filter fun x => f x == i).map g).sum := by
      intro i _
      by_cases hfa : f a = i
      · simp [List.filter_cons, hfa]
      · have hb : (f a == i) = false := by simpa using hfa
        simp [List.filter_cons, hb, hfa]
    rw [Finset.sum_congr rfl step, Finset.sum_add_distrib, ih ht]
    simp [Finset.sum_ite_eq, Finset.mem_range, ha]

theorem sse_expand (ys : List ℚ) (c : ℚ) :
    sse ys c = (ys.map fun y => y ^ 2).sum - 2 * c * ys.sum + (ys.length : ℚ) * c ^ 2 := by
  induction ys with
  | nil => simp [sse]
  | cons y t ih =>
    have h1 : sse (y :: t) c = (y - c) ^ 2 + sse t c := by simp [sse]
    rw [h1, ih]
    simp only [List.map_cons, List.sum_cons, List.length_cons]
    push_cast
    ring

theorem mean_sse_le (ys : List ℚ) (c : ℚ) : sse ys (mean ys) ≤ sse ys c := by
  rcases eq_or_ne ys [] with rfl | hne
  · simp [sse, mean]
  · have hn0 : ys.length ≠ 0 := by simpa [List.length_eq_zero] using hne
    have hn : (0 : ℚ) < (ys.length : ℚ) := by exact_mod_cast Nat.pos_of_ne_zero hn0
    have hd : sse ys c - sse ys (mean ys) = (ys.length : ℚ) * (c - mean ys) ^ 2 := by
      rw [sse_expand, sse_expand, mean]
      field_simp
      ring
    nlinarith [mul_nonneg hn.le (sq_nonneg (c - mean ys))]

theorem cell_lt (k : ℕ) (u : ℚ) (hk : 0 < k) : cell k u < k := by
  unfold cell
  have h := Nat.min_le_left (k - 1) ⌊u * (k : ℚ)⌋₊
  omega

theorem fitCtrl_getD (k i : ℕ) (s : List (ℚ × ℚ)) (h : i < k) :
    (fitCtrl k s).getD i 0 = mean (groupVals k s i) := by
  unfold fitCtrl
  rw [List.getD_eq_getElem _ _ (by simpa using h)]
  simp

theorem sum_cells (k : ℕ) (s : List (ℚ × ℚ)) (hk : 0 < k) (c : ℕ → ℚ) :
    (s.map fun uy => (uy.2 - c (cell k uy.1)) ^ 2).sum
      = ∑ i in Finset.range k, sse (groupVals k s i) (c i) := by
  rw [← sum_fiber s (fun uy => cell k uy.1) (fun uy => (uy.2 - c (cell k uy.1)) ^ 2) k
      (fun x _ => cell_lt k x.1 hk)]
  apply Finset.sum_congr rfl
  intro i _
  have hmem : ∀ uy ∈ s.filter (fun uy => cell k uy.1 == i),
      (uy.2 - c (cell k uy.1)) ^ 2 = (uy.2 - c i) ^ 2 := by
    intro uy hy
    have h2 : cell k uy.1 = i := by simpa using (List.mem_filter.1 hy).2
    rw [h2]
  rw [List.map_congr_left hmem]
  unfold sse groupVals
  rw [List.map_map]
  rfl

theorem l2errSq_eq (k : ℕ) (s : List (ℚ × ℚ)) (hk : 0 < k) :
    l2errSq k s = ∑ i in Finset.range k, sse (groupVals k s i) (mean (groupVals k s i)) := by
  unfold l2errSq
  rw [← sum_cells k s hk (fun i => mean (groupVals k s i))]
  apply congrArg
  apply List.map_congr_left
  intro uy _
  rw [fitCtrl_getD k _ s (cell_lt k uy.1 hk)]

theorem cell_nest (u : ℚ) (h0 : 0 ≤ u) (h1 : u ≤ 1) (j k : ℕ) (hj : 0 < j) (hk : 0 < k) :
    cell k u = cell (j * k) u / j := by
  have hdiv : (u * ((j * k : ℕ) : ℚ)) / ((j : ℕ) : ℚ) = u * (k : ℚ) := by
    have hjq : ((j : ℕ) : ℚ) ≠ 0 := by exact_mod_cast hj.ne'
    push_cast
    field_simp
    ring
  have hfl : ⌊u * (k : ℚ)⌋₊ = ⌊u * ((j * k : ℕ) : ℚ)⌋₊ / j := by
    rw [← hdiv, Nat.floor_div_nat]
  have hb : ⌊u * ((j * k : ℕ) : ℚ)⌋₊ ≤ j * k := by
    have hjk0 : (0 : ℚ) ≤ ((j * k : ℕ) : ℚ) := by positivity
    have h2 : u * ((j * k : ℕ) : ℚ) ≤ ((j * k : ℕ) : ℚ) := by nlinarith
    calc ⌊u * ((j * k : ℕ) : ℚ)⌋₊ ≤ ⌊((j * k : ℕ) : ℚ)⌋₊ := Nat.floor_le_floor h2
      _ = j * k := Nat.floor_natCast _
  have hq : (j * k - 1) / j = k - 1 := by
    have hrw : j * k - 1 = j * (k - 1) + (j - 1) := by
      cases k with
      | zero => omega
      | succ k' =>
        have e1 : j * (k' + 1) = j * k' + j := by ring
        have e2 : j * (k' + 1 - 1) = j * k' := by simp
        omega
    rw [hrw, Nat.mul_add_div hj]
    have : (j - 1) / j = 0 := Nat.div_eq_of_lt (by omega)
    omega
  unfold cell
  rw [hfl]
  rcases Nat.lt_or_ge ⌊u * ((j * k : ℕ) : ℚ)⌋₊ (j * k) with hlt | hge
  · have e1 : min (j * k - 1) ⌊u * ((j * k : ℕ) : ℚ)⌋₊ = ⌊u * ((j * k : ℕ) : ℚ)⌋₊ :=
      min_eq_right (by omega)
    have e2 : ⌊u * ((j * k : ℕ) : ℚ)⌋₊ / j ≤ k - 1 := by
      calc ⌊u * ((j * k : ℕ) : ℚ)⌋₊ / j ≤ (j * k - 1) / j :=
            Nat.div_le_div_right (by omega)
        _ = k - 1 := hq
    rw [e1, min_eq_right e2]
  · have hFe : ⌊u * ((j * k : ℕ) : ℚ)⌋₊ = j * k := le_antisymm hb hge
    rw [hFe, Nat.mul_div_cancel_left k hj, min_eq_left (by omega),
      min_eq_left (by omega), hq]

/-! ## Concrete cell evaluations for the example dataset -/

theorem cellval (u : ℚ) (k n : ℕ) (h0 : 0 ≤ u * k) (h1 : (n : ℚ) ≤ u * k)
    (h2 : u * k < n + 1) (h3 : n ≤ k - 1) : cell k u = n := by
  unfold cell
  rw [(Nat.floor_eq_iff h0).2 ⟨h1, h2⟩]
  exact min_eq_right h3

theorem cell_2_0 : cell 2 (0 : ℚ) = 0 :=
  cellval 0 2 0 (by norm_num) (by norm_num) (by norm_num) (by norm_num)

theorem cell_2_15 : cell 2 (1/5 : ℚ) = 0 :=
  cellval _ 2 0 (by norm_num) (by norm_num) (by norm_num) (by norm_num)

theorem cell_2_25 : cell 2 (2/5 : ℚ) = 0 :=
  cellval _ 2 0 (by norm_num) (by norm_num) (by norm_num) (by norm_num)

theorem cell_2_35 : cell 2 (3/5 : ℚ) = 1 :=
  cellval _ 2 1 (by norm_num) (by norm_num) (by norm_num) (by norm_num)

theorem cell_2_45 : cell 2 (4/5 : ℚ) = 1 :=
  cellval _ 2 1 (by norm_num) (by norm_num) (by norm_num) (by norm_num)

theorem cell_2_1 : cell 2 (1 : ℚ) = 1 := by unfold cell; norm_num

theorem cell_3_0 : cell 3 (0 : ℚ) = 0 :=
  cellval _ 3 0 (by norm_num) (by norm_num) (by norm_num) (by norm_num)

theorem cell_3_15 : cell 3 (1/5 : ℚ) = 0 :=
  cellval _ 3 0 (by norm_num) (by norm_num) (by norm_num) (by norm_num)

theorem cell_3_25 : cell 3 (2/5 : ℚ) = 1 :=
  cellval _ 3 1 (by norm_num) (by norm_num) (by norm_num) (by norm_num)

theorem cell_3_35 : cell 3 (3/5 : ℚ) = 1 :=
  cellval _ 3 1 (by norm_num) (by norm_num) (by norm_num) (by norm_num)

theorem cell_3_45 : cell 3 (4/5 : ℚ) = 2 :=
  cellval _ 3 2 (by norm_num) (by norm_num) (by norm_num) (by norm_num)

theorem cell_3_1 : cell 3 (1 : ℚ) = 2 := by unfold cell; norm_num

/-! ## Least-squares optimality of the degree-0 fit -/

theorem predict_pc (k : ℕ) (c : List ℚ) (u : ℚ) (hk : 0 < k) :
    predict (pcBasis k) k c u = c.getD (cell k u) 0 := by
  unfold predict pcBasis
  have hbridge : ((List.range k).map fun i =>
        (if cell k u = i then (1 : ℚ) else 0) * c.getD i 0).sum
      = ∑ i in Finset.range k, (if cell k u = i then (1 : ℚ) else 0) * c.getD i 0 := rfl
  rw [hbridge, Finset.sum_congr rfl fun i _ => by
    rw [ite_mul, one_mul, zero_mul]]
  rw [Finset.sum_ite_eq]
  simp [Finset.mem_range.2 (cell_lt k u hk)]

theorem residSq_pc (k : ℕ) (c : List ℚ) (s : List (ℚ × ℚ)) (hk : 0 < k) :
    residSq (pcBasis k) k c s
      = ∑ i in Finset.range k, sse (groupVals k s i) (c.getD i 0) := by
  unfold residSq
  have hmap : (s.map fun uy => (uy.2 - predict (pcBasis k) k c uy.1) ^ 2)
      = s.map fun uy => (uy.2 - c.getD (cell k uy.1) 0) ^ 2 :=
    List.map_congr_left fun uy _ => by rw [predict_pc k c uy.1 hk]
  rw [hmap]
  exact sum_cells k s hk fun i => c.getD i 0

theorem residSq_pc_fit (k : ℕ) (s : List (ℚ × ℚ)) (hk : 0 < k) :
    residSq (pcBasis k) k (fitCtrl k s) s = l2errSq k s := by
  unfold residSq l2errSq
  apply congrArg
  apply List.map_congr_left
  intro uy _
  rw [predict_pc k _ uy.1 hk]

theorem fitCtrl_isLSQ (k : ℕ) (s : List (ℚ × ℚ)) (hk : 0 < k) :
    IsLSQ (pcBasis k) k (fitCtrl k s) s := by
  intro c'
  rw [residSq_pc_fit k s hk, residSq_pc k c' s hk, l2errSq_eq k s hk]
  exact Finset.sum_le_sum fun i _ => mean_sse_le _ _

/-! ## Contiguous assigner lemmas -/

theorem chunksFrom_length (s : ℕ) (cs : List ℕ) : (chunksFrom s cs).length = cs.length := by
  induction cs generalizing s with
  | nil => rfl
  | cons c t ih => simp [chunksFrom, ih]

theorem chunksFrom_flatten (s : ℕ) (cs : List ℕ) :
    (chunksFrom s cs).flatten = List.range' s cs.sum := by
  induction cs generalizing s with
  | nil => simp [chunksFrom]
  | cons c t ih =>
    have happ := List.range'_append s c t.sum 1
    simp only [one_mul] at happ
    calc (chunksFrom s (c :: t)).flatten
        = List.range' s c ++ (chunksFrom (s + c) t).flatten := by simp [chunksFrom]
      _ = List.range' s c ++ List.range' (s + c) t.sum := by rw [ih]
      _ = List.range' s (t.sum + c) := happ
      _ = List.range' s (c :: t).sum := by simp [List.sum_cons, Nat.add_comm]

theorem chunksFrom_nodup (s : ℕ) (cs : List ℕ) : ∀ l ∈ chunksFrom s cs, l.Nodup := by
  induction cs generalizing s with
  | nil => simp [chunksFrom]
  | cons c t ih =>
    intro l hl
    rcases List.mem_cons.1 hl with rfl | hl'
    · exact List.nodup_range' s c 1 (by norm_num)
    · exact ih (s + c) l hl'

theorem chunksFrom_getD (cs : List ℕ) (s r : ℕ) (h : r < cs.length) :
    (chunksFrom s cs).getD r [] = List.range' (s + (cs.take r).sum) (cs.getD r 0) := by
  induction cs generalizing s r with
  | nil => simp at h
  | cons c t ih =>
    cases r with
    | zero => simp [chunksFrom]
    | succ r' =>
      have h' : r' < t.length := by simpa using h
      simp only [chunksFrom, List.getD_cons_succ]
      rw [ih (s + c) r' h']
      simp only [List.take_succ_cons, List.sum_cons, List.getD_cons_succ]
      congr 1
      omega

theorem counts_sum (size nblocks : ℕ) (h : 0 < size) : (counts size nblocks).sum = nblocks := by
  have key : ∀ (n d m : ℕ), ((List.range n).map fun r => d + if r < m then 1 else 0).sum
      = n * d + min m n := by
    intro n d m
    induction n with
    | zero => simp
    | succ n ih =>
      rw [List.range_succ n, List.map_append, List.sum_append, ih]
      have e1 : (n + 1) * d = n * d + d := by ring
      by_cases hnm : n < m <;> simp [hnm] <;> omega
  unfold counts
  rw [key]
  have h1 : nblocks % size < size := Nat.mod_lt _ h
  rw [min_eq_left h1.le, Nat.div_add_mod]

theorem chunks_length (size nblocks : ℕ) : (chunks size nblocks).length = size := by
  unfold chunks counts
  rw [chunksFrom_length]
  simp

theorem chunks_flatten (size nblocks : ℕ) (h : 0 < size) :
    (chunks size nblocks).flatten = List.range nblocks := by
  unfold chunks
  rw [chunksFrom_flatten, counts_sum size nblocks h, List.range_eq_range']

theorem gidsOfRank_nodup (size nblocks r : ℕ) : (gidsOfRank size nblocks r).Nodup := by
  unfold gidsOfRank
  rcases Nat.lt_or_ge r (chunks size nblocks).length with hlen | hlen
  · rw [List.getD_eq_getElem _ _ hlen]
    exact chunksFrom_nodup 0 (counts size nblocks) _ (List.getElem_mem hlen)
  · rw [List.getD_eq_default _ _ hlen]
    exact List.nodup_nil

/-! ## Decomposer interval lemmas -/

theorem coreLo_mono (mn mx : ℚ) (k : ℕ) (h : mn ≤ mx) {a b : ℕ} (hab : a ≤ b) :
    coreLo mn mx k a ≤ coreLo mn mx k b := by
  unfold coreLo
  have hs : 0 ≤ (mx - mn) / (k : ℚ) := div_nonneg (by linarith) (by positivity)
  have hc : ((a : ℕ) : ℚ) ≤ ((b : ℕ) : ℚ) := by exact_mod_cast hab
  nlinarith

theorem interval_sep (mn mx : ℚ) (k : ℕ) (h : mn ≤ mx) {a b : ℕ} (hab : a < b) :
    ¬ (max (coreLo mn mx k a) (coreLo mn mx k b) <
       min (coreLo mn mx k (a + 1)) (coreLo mn mx k (b + 1))) := by
  intro hlt
  have h1 : coreLo mn mx k (a + 1) ≤ coreLo mn mx k b := coreLo_mono mn mx k h (by omega)
  have h2 := min_le_left (coreLo mn mx k (a + 1)) (coreLo mn mx k (b + 1))
  have h3 := le_max_right (coreLo mn mx k a) (coreLo mn mx k b)
  linarith

/-! ## Driver trace lemmas -/

theorem trace_pos (sts : List Stage) (gids : List ℕ) (i b : ℕ) (st : Stage)
    (h : (sts.flatMap fun s => gids.map fun g => (g, s))[i]? = some (b, st)) :
    ∃ q r, r < gids.length ∧ i = q * gids.length + r ∧ sts[q]? = some st := by
  induction sts generalizing i with
  | nil => simp at h
  | cons s t ih =>
    rw [List.flatMap_cons] at h
    rcases Nat.lt_or_ge i gids.length with hi | hi
    · rw [List.getElem?_append_left (by simpa using hi)] at h
      obtain ⟨g, _, he⟩ := List.mem_map.1 (List.getElem?_mem h)
      have hst : st = s := (Prod.ext_iff.1 he).2.symm
      exact ⟨0, i, hi, by omega, by simp [hst]⟩
    · rw [List.getElem?_append_right (by simpa using hi)] at h
      simp only [List.length_map] at h
      obtain ⟨q, r, hr, hie, hq⟩ := ih (i - gids.length) h
      refine ⟨q + 1, r, hr, ?_, by simpa using hq⟩
      have e1 : (q + 1) * gids.length = q * gids.length + gids.length := by ring
      omega

theorem count_pair_map (gids : List ℕ) (b : ℕ) (s t : Stage) :
    (gids.map fun g => (g, s)).count (b, t) = if t = s then gids.count b else 0 := by
  induction gids with
  | nil => simp
  | cons g gs ih =>
    simp only [List.map_cons, List.count_cons, ih, beq_iff_eq, Prod.mk.injEq]
    by_cases hts : t = s
    · by_cases hbg : b = g <;> simp [hts, hbg]
    · have hst : ¬ s = t := fun h => hts h.symm
      by_cases hbg : b = g <;> simp [hts, hst, hbg]

/-! ## Serialization lemma -/

theorem lookup_write (blocks : List (ℕ × Block)) (gid : ℕ) :
    (write_blocks blocks).lookup gid = (blocks.lookup gid).map save_block := by
  induction blocks with
  | nil => rfl
  | cons gb t ih =>
    cases gb with
    | mk g b =>
      simp only [write_blocks, List.map_cons, List.lookup] at ih ⊢
      cases hq : (gid == g) <;> simp [hq, ih]

theorem stage_index (q : ℕ) (st : Stage)
    (h : ([Stage.reg, Stage.gen, Stage.enc, Stage.chkErr, Stage.pr, Stage.sv])[q]? = some st) :
    q = stIdx st := by
  rcases q with _ | _ | _ | _ | _ | _ | q <;> simp_all <;> simp [← h, stIdx]

theorem trace_order (gids : List ℕ) (b1 b2 i j : ℕ) (s1 s2 : Stage)
    (h1 : (driverTrace gids)[i]? = some (b1, s1))
    (h2 : (driverTrace gids)[j]? = some (b2, s2))
    (hs : stIdx s1 < stIdx s2) : i < j := by
  obtain ⟨q1, r1, hr1, hi, hq1⟩ := trace_pos _ gids i b1 s1 h1
  obtain ⟨q2, r2, hr2, hj, hq2⟩ := trace_pos _ gids j b2 s2 h2
  have e1 := stage_index q1 s1 hq1
  have e2 := stage_index q2 s2 hq2
  have e3 : (q1 + 1) * gids.length = q1 * gids.length + gids.length := by ring
  have e4 : (q1 + 1) * gids.length ≤ q2 * gids.length :=
    Nat.mul_le_mul_right gids.length (by omega)
  omega

/-! ## Claim theorems -/

/-- C1: for every encode invocation, if the control-point count reaches the
sample count in any dimension (geometry or any variable), the encoder returns
`EncodingError` — the error value carries no control points, so none is
computed — and encoding succeeds only when the control-point count is strictly
below the sample count in every dimension. -/
theorem fixed_encode_underdetermined (a : DomainArgs) (b : Block) :
    (¬ ctrlLtSamples a → fixed_encode_block a b = Except.error EncErr.underdetermined) ∧
    (∀ b', fixed_encode_block a b = Except.ok b' → ctrlLtSamples a) := by
  have hiff : encodeOK a = true ↔ ctrlLtSamples a := by
    unfold encodeOK ctrlLtSamples
    simp [List.all_eq_true]
  constructor
  · intro h
    have hE : encodeOK a = false := by
      cases hE : encodeOK a
      · rfl
      · exact absurd (hiff.1 hE) h
    simp [fixed_encode_block, hE]
  · intro b' hb'
    cases hE : encodeOK a
    · simp [fixed_encode_block, hE] at hb'
    · exact hiff.1 hE

theorem fixed_encode_underdetermined_witness :
    ¬ ctrlLtSamples badEncArgs ∧
      fixed_encode_block badEncArgs (mkBlock badEncArgs) = Except.error EncErr.underdetermined :=
  ⟨by decide, (fixed_encode_underdetermined badEncArgs (mkBlock badEncArgs)).1 (by decide)⟩

/-- C2: loading a saved block (reading back what `write_blocks` persisted,
keyed only by global ID — hence independent of the writing or reading rank)
yields a block whose every spline model — the geometry model and every
science-variable model — is preserved exactly and therefore evaluates
identically to the pre-save model at every domain point. -/
theorem save_load_roundtrip (blocks : List (ℕ × Block)) (gid : ℕ) (b : Block)
    (h : blocks.lookup gid = some b) :
    ∃ b2, read_block (write_blocks blocks) gid = some b2 ∧
      b2.geom = b.geom ∧ b2.vars = b.vars ∧
      (∀ x, b2.geom.eval x = b.geom.eval x) ∧
      ∀ v x, blockEval b2 v x = blockEval b v x := by
  refine ⟨load_block (save_block b), ?_, rfl, rfl, fun x => rfl, fun v x => rfl⟩
  rw [read_block, lookup_write, h]
  rfl

theorem save_load_roundtrip_witness :
    ([(0, blk0)] : List (ℕ × Block)).lookup 0 = some blk0 ∧
      ∃ b2, read_block (write_blocks [(0, blk0)]) 0 = some b2 ∧
        b2.geom = blk0.geom ∧ b2.vars = blk0.vars ∧
        (∀ x, b2.geom.eval x = blk0.geom.eval x) ∧
        ∀ v x, blockEval b2 v x = blockEval blk0 v x :=
  ⟨rfl, save_load_roundtrip [(0, blk0)] 0 blk0 rfl⟩

/-- C3: the decomposed cores tile the domain — their volumes sum to the full
domain volume and distinct cores never overlap — and the block-construction
callback is invoked exactly once per block the assigner gives to the local
rank. -/
theorem decompose_partition {D : ℕ} (mn mx : Fin D → ℚ) (k : Fin D → ℕ)
    (size nblocks rank : ℕ) (hk : ∀ d, 0 < k d) (hmn : ∀ d, mn d ≤ mx d) :
    (∑ idx : ((d : Fin D) → Fin (k d)), coreVol mn mx k idx) = domainVol mn mx ∧
    (∀ i j : ((d : Fin D) → Fin (k d)), i ≠ j → ¬ coresOverlap mn mx k i j) ∧
    (∀ g, (decomposeInvocations size nblocks rank).count g =
        if g ∈ gidsOfRank size nblocks rank then 1 else 0) := by
  refine ⟨?_, ?_, ?_⟩
  · have hconst : ∀ idx : ((d : Fin D) → Fin (k d)),
        coreVol mn mx k idx = ∏ d, ((mx d - mn d) / (k d : ℚ)) := by
      intro idx
      unfold coreVol coreLo
      apply Finset.prod_congr rfl
      intro d _
      push_cast
      ring
    rw [Finset.sum_congr rfl fun idx _ => hconst idx, Finset.sum_const, Finset.card_univ,
      Fintype.card_pi]
    simp only [Fintype.card_fin]
    rw [nsmul_eq_mul]
    push_cast
    rw [← Finset.prod_mul_distrib]
    unfold domainVol
    apply Finset.prod_congr rfl
    intro d _
    have hne : ((k d : ℕ) : ℚ) ≠ 0 := by exact_mod_cast (hk d).ne'
    rw [mul_comm, div_mul_cancel₀ _ hne]
  · intro i j hne hov
    have hex : ∃ d, i d ≠ j d := by
      by_contra hc
      push_neg at hc
      exact hne (funext fun d => hc d)
    obtain ⟨d, hd⟩ := hex
    have hv : (i d : ℕ) ≠ (j d : ℕ) := fun hh => hd (Fin.ext hh)
    have hovd := hov d
    rcases Nat.lt_or_ge (i d : ℕ) (j d : ℕ) with hlt | hge
    · exact interval_sep (mn d) (mx d) (k d) (hmn d) hlt hovd
    · have hlt : (j d : ℕ) < (i d : ℕ) := by omega
      rw [max_comm, min_comm] at hovd
      exact interval_sep (mn d) (mx d) (k d) (hmn d) hlt hovd
  · intro g
    unfold decomposeInvocations
    by_cases hg : g ∈ gidsOfRank size nblocks rank
    · rw [if_pos hg]
      exact List.count_eq_one_of_mem (gidsOfRank_nodup size nblocks rank) hg
    · rw [if_neg hg]
      exact List.count_eq_zero_of_not_mem hg

theorem decompose_partition_witness :
    (∑ idx : ((d : Fin 2) → Fin ((fun _ => 2) d)),
        coreVol (fun _ => (0 : ℚ)) (fun _ => 1) (fun _ => 2) idx)
      = domainVol (fun _ : Fin 2 => (0 : ℚ)) (fun _ => 1) :=
  (decompose_partition (fun _ => (0 : ℚ)) (fun _ => 1) (fun _ => 2) 2 4 0
    (fun _ => by norm_num) (fun _ => by norm_num)).1

/-- C4: in the driver's event trace, every generate event of a block precedes
its encode event, every encode event precedes its error-evaluation event, and
— for distinct registered blocks — each of the generate, encode and
error-evaluation stages is applied exactly once per block. -/
theorem pipeline_stage_order (gids : List ℕ) :
    (∀ (b i j : ℕ), (driverTrace gids)[i]? = some (b, Stage.gen) →
        (driverTrace gids)[j]? = some (b, Stage.enc) → i < j) ∧
    (∀ (b i j : ℕ), (driverTrace gids)[i]? = some (b, Stage.enc) →
        (driverTrace gids)[j]? = some (b, Stage.chkErr) → i < j) ∧
    (∀ b : ℕ, gids.Nodup → b ∈ gids →
        (driverTrace gids).count (b, Stage.gen) = 1 ∧
        (driverTrace gids).count (b, Stage.enc) = 1 ∧
        (driverTrace gids).count (b, Stage.chkErr) = 1) := by
  refine ⟨?_, ?_, ?_⟩
  · intro b i j h1 h2
    exact trace_order gids b b i j Stage.gen Stage.enc h1 h2 (by simp [stIdx])
  · intro b i j h1 h2
    exact trace_order gids b b i j Stage.enc Stage.chkErr h1 h2 (by simp [stIdx])
  · intro b hnd hb
    have hcount : ∀ t : Stage, (driverTrace gids).count (b, t) = gids.count b := by
      intro t
      unfold driverTrace
      simp only [List.flatMap_cons, List.flatMap_nil, List.append_nil, List.count_append,
        count_pair_map]
      cases t <;> simp
    have h1 := List.count_eq_one_of_mem hnd hb
    exact ⟨by rw [hcount, h1], by rw [hcount, h1], by rw [hcount, h1]⟩

theorem pipeline_stage_order_witness :
    (driverTrace [0])[1]? = some (0, Stage.gen) ∧
      (driverTrace [0])[2]? = some (0, Stage.enc) ∧ (1 : ℕ) < 2 :=
  ⟨by decide, by decide, (pipeline_stage_order [0]).1 0 1 2 (by decide) (by decide)⟩

/-- C5: the contiguous assigner partitions the global IDs — the per-rank lists
flatten to exactly [0, …, nblocks−1] (union with no duplicates), every ID below
nblocks is owned by exactly one rank, each rank's list is a contiguous range,
and with 4 blocks on 2 ranks the two ranks own [0,1] and [2,3]. -/
theorem contiguous_assigner_partition (size nblocks : ℕ) (h : 0 < size) :
    ((chunks size nblocks).flatten = List.range nblocks) ∧
    (∀ gid, gid < nblocks → ∃! r, r < size ∧ gid ∈ gidsOfRank size nblocks r) ∧
    (∀ r, r < size → gidsOfRank size nblocks r =
        List.range' (((counts size nblocks).take r).sum) ((counts size nblocks).getD r 0)) ∧
    (gidsOfRank 2 4 0 = [0, 1] ∧ gidsOfRank 2 4 1 = [2, 3]) := by
  have hflat := chunks_flatten size nblocks h
  have hnd : (chunks size nblocks).flatten.Nodup := by
    rw [hflat]; exact List.nodup_range nblocks
  have hpw := (List.nodup_flatten.1 hnd).2
  refine ⟨hflat, ?_, ?_, by decide⟩
  · intro gid hgid
    have hmemf : gid ∈ (chunks size nblocks).flatten := by
      rw [hflat]; exact List.mem_range.2 hgid
    obtain ⟨l, hl, hgl⟩ := List.mem_flatten.1 hmemf
    obtain ⟨r, hr, hre⟩ := List.getElem_of_mem hl
    have hrs : r < size := by rw [← chunks_length size nblocks]; exact hr
    refine ⟨r, ⟨hrs, ?_⟩, ?_⟩
    · unfold gidsOfRank
      rw [List.getD_eq_getElem _ _ hr, hre]
      exact hgl
    · rintro r' ⟨hr's, hg'⟩
      by_contra hne
      have hr'len : r' < (chunks size nblocks).length := by
        rw [chunks_length]; exact hr's
      have hg'' : gid ∈ (chunks size nblocks)[r'] := by
        unfold gidsOfRank at hg'
        rwa [List.getD_eq_getElem _ _ hr'len] at hg'
      have hgr : gid ∈ (chunks size nblocks)[r] := by rw [hre]; exact hgl
      rcases Nat.lt_or_ge r' r with hlt | hge
      · exact (List.pairwise_iff_getElem.1 hpw r' r hr'len hr hlt) hg'' hgr
      · have hlt : r < r' := by omega
        exact (List.pairwise_iff_getElem.1 hpw r r' hr hr'len hlt) hgr hg''
  · intro r hr
    unfold gidsOfRank chunks
    rw [chunksFrom_getD _ 0 r (by simpa [counts] using hr)]
    simp

theorem contiguous_assigner_partition_witness :
    (0 < 2) ∧ (chunks 2 4).flatten = List.range 4 :=
  ⟨by decide, (contiguous_assigner_partition 2 4 (by decide)).1⟩

/-- C6 counterexample: exSamples is a uniformly spaced sample grid (exactly
linspace 0 1 6, so the uniform knot vector is the spec's applicable knot
policy), its values are consistent with a smooth function, and both
control-point counts 2 and 3 are strictly below the sample count 6; the
exhibited control points are genuinely least-squares optimal for their spline
spaces (IsLSQ, the spec's encoder contract), yet raising the control-point
count from 2 to 3 strictly increases the aggregate L2 error of the
least-squares fit, refuting the claimed unconditional monotonicity. -/
theorem l2err_not_monotone_counterexample :
    exSamples.map Prod.fst = linspace 0 1 6 ∧
    2 < 3 ∧ 3 < exSamples.length ∧
    IsLSQ (pcBasis 2) 2 (fitCtrl 2 exSamples) exSamples ∧
    IsLSQ (pcBasis 3) 3 (fitCtrl 3 exSamples) exSamples ∧
    residSq (pcBasis 2) 2 (fitCtrl 2 exSamples) exSamples <
      residSq (pcBasis 3) 3 (fitCtrl 3 exSamples) exSamples := by
  refine ⟨?_, by norm_num, by norm_num [exSamples],
    fitCtrl_isLSQ 2 exSamples (by norm_num), fitCtrl_isLSQ 3 exSamples (by norm_num), ?_⟩
  · norm_num [exSamples, linspace, List.range_succ, List.range_zero]
  · have h2 : l2errSq 2 exSamples = 0 := by
      norm_num [l2errSq, exSamples, fitCtrl, groupVals, mean, cell_2_0, cell_2_15,
        cell_2_25, cell_2_35, cell_2_45, cell_2_1]
    have h3 : l2errSq 3 exSamples = 1/2 := by
      norm_num [l2errSq, exSamples, fitCtrl, groupVals, mean, cell_3_0, cell_3_15,
        cell_3_25, cell_3_35, cell_3_45, cell_3_1]
    rw [residSq_pc_fit 2 exSamples (by norm_num), residSq_pc_fit 3 exSamples (by norm_num),
      h2, h3]
    norm_num

/-- C6 (amended): increasing the control-point count does not increase the
aggregate L2 error whenever the finer spline space can reproduce every
coarser-space fit at the sample parameters — stated first for least-squares
fits (IsLSQ, the spec's encoder contract) over an arbitrary basis, degree and
domain dimension, and then for the modelled uniform-knot encoder under nested
refinement (the coarser control-point count dividing the finer); for
non-nested control grids the error can strictly increase even on uniformly
spaced samples (see the counterexample). -/
theorem l2err_monotone_on_nested_refinement :
    (∀ (α : Type) (s : List (α × ℚ)) (bc bf : ℕ → α → ℚ) (kc kf : ℕ) (cc cf : List ℚ),
      IsLSQ bc kc cc s → IsLSQ bf kf cf s →
      (∀ c : List ℚ, ∃ c' : List ℚ, ∀ uy ∈ s, predict bf kf c' uy.1 = predict bc kc c uy.1) →
      residSq bf kf cf s ≤ residSq bc kc cc s) ∧
    (∀ (s : List (ℚ × ℚ)), (∀ uy ∈ s, 0 ≤ uy.1 ∧ uy.1 ≤ 1) →
      ∀ k j, 0 < k → 0 < j → l2errSq (j * k) s ≤ l2errSq k s) := by
  constructor
  · intro α s bc bf kc kf cc cf hc hf hembed
    obtain ⟨c2, hc2⟩ := hembed cc
    have he : residSq bf kf c2 s = residSq bc kc cc s := by
      unfold residSq
      exact congrArg List.sum (List.map_congr_left fun uy hy => by rw [hc2 uy hy])
    calc residSq bf kf cf s ≤ residSq bf kf c2 s := hf c2
      _ = residSq bc kc cc s := he
  · intro s hs k j hk hj
    have hjk : 0 < j * k := Nat.mul_pos hj hk
    calc l2errSq (j * k) s
        = ∑ i in Finset.range (j * k),
            sse (groupVals (j * k) s i) (mean (groupVals (j * k) s i)) :=
          l2errSq_eq (j * k) s hjk
      _ ≤ ∑ i in Finset.range (j * k),
            sse (groupVals (j * k) s i) (mean (groupVals k s (i / j))) :=
          Finset.sum_le_sum fun i _ => mean_sse_le _ _
      _ = (s.map fun uy => (uy.2 - mean (groupVals k s (cell (j * k) uy.1 / j))) ^ 2).sum :=
          (sum_cells (j * k) s hjk fun i => mean (groupVals k s (i / j))).symm
      _ = (s.map fun uy => (uy.2 - mean (groupVals k s (cell k uy.1))) ^ 2).sum := by
          apply congrArg
          apply List.map_congr_left
          intro uy hy
          rw [← cell_nest uy.1 (hs uy hy).1 (hs uy hy).2 j k hj hk]
      _ = ∑ i in Finset.range k, sse (groupVals k s i) (mean (groupVals k s i)) :=
          sum_cells k s hk fun i => mean (groupVals k s i)
      _ = l2errSq k s := (l2errSq_eq k s hk).symm

theorem l2err_monotone_on_nested_refinement_witness :
    (∀ uy ∈ exSamples, 0 ≤ uy.1 ∧ uy.1 ≤ 1) ∧ (0 < 2) ∧
      l2errSq (2 * 2) exSamples ≤ l2errSq 2 exSamples :=
  ⟨by norm_num [exSamples], by norm_num,
    l2err_monotone_on_nested_refinement.2 exSamples (by norm_num [exSamples]) 2 2
      (by norm_num) (by norm_num)⟩

/-- C7: encoding an already-encoded block again with identical arguments
reproduces exactly the same block — the encoder is a deterministic function of
the unmodified SampleSet and the arguments, so the control points are
bit-identical. -/
theorem fixed_encode_idempotent (a : DomainArgs) (b b' : Block)
    (h : fixed_encode_block a b = Except.ok b') :
    fixed_encode_block a b' = Except.ok b' := by
  cases b with
  | mk dd pd mn mx inp g vs e =>
    cases hE : encodeOK a
    · simp [fixed_encode_block, hE] at h
    · simp only [fixed_encode_block, hE] at h ⊢
      simp only [if_pos] at h ⊢
      injection h with h3
      subst h3
      rfl

theorem fixed_encode_idempotent_witness :
    ∃ b', fixed_encode_block smallArgs smallBlock = Except.ok b' ∧
      fixed_encode_block smallArgs b' = Except.ok b' :=
  ⟨_, rfl, fixed_encode_idempotent smallArgs smallBlock _ rfl⟩

/-- C8: error evaluation annotates only the block's stored error field — the
geometry model, every variable model, the samples and the descriptor fields are
unchanged, and the error field receives the computed aggregate error. -/
theorem range_error_frame (b : Block) :
    (rangeError b).geom = b.geom ∧ (rangeError b).vars = b.vars ∧
    (rangeError b).input = b.input ∧ (rangeError b).dom_dim = b.dom_dim ∧
    (rangeError b).pt_dim = b.pt_dim ∧ (rangeError b).mn = b.mn ∧
    (rangeError b).mx = b.mx ∧ (rangeError b).errVal = some (blockSSE b) :=
  ⟨rfl, rfl, rfl, rfl, rfl, rfl, rfl, rfl⟩

/-- C9: a DomainArgs configuration passes validation exactly when every
per-dimension vector has length dom_dim, there are pt_dim − dom_dim per-variable
vectors (each of length dom_dim) and s has length pt_dim; an invalid
configuration makes the pipeline fail with ConfigurationError before any block
is constructed. -/
theorem domainargs_validation (a : DomainArgs) :
    (a.valid = true ↔ validOpts a) ∧
    (∀ fn size nblocks rank, a.valid = false →
      runPipeline fn size nblocks rank a = Except.error PErr.configError) := by
  constructor
  · unfold DomainArgs.valid validOpts
    simp only [Bool.and_eq_true, beq_iff_eq, List.all_eq_true]
    tauto
  · intro fn size nblocks rank hv
    simp [runPipeline, hv]

theorem domainargs_validation_witness :
    badArgs.valid = false ∧
      runPipeline (fun _ => 0) 1 1 0 badArgs = Except.error PErr.configError :=
  ⟨by decide, (domainargs_validation badArgs).2 (fun _ => 0) 1 1 0 (by decide)⟩

/-- C10: the driver's configuration assigns the `f` field (value [1,1]), which
is not inspected by validation (validity is unchanged under any `f`); the
configuration is accepted and, for every sampled function, the
generate/encode/error pipeline runs to completion with every per-block encode
succeeding. -/
theorem driver_f_field_accepted :
    driverArgs.f = [1, 1] ∧
    (∀ g : List ℚ, (DomainArgs.valid { driverArgs with f := g }) = driverArgs.valid) ∧
    driverArgs.valid = true ∧
    (∀ fn, ∃ l, runPipeline fn 1 1 0 driverArgs = Except.ok l ∧
      l.length = 1 ∧ ∀ p ∈ l, isOkE p.2 = true) := by
  refine ⟨rfl, fun g => rfl, by decide, fun fn => ?_⟩
  refine ⟨_, rfl, rfl, ?_⟩
  intro p hp
  have hl : gidsOfRank 1 1 0 = [0] := rfl
  rw [hl] at hp
  simp only [List.map_cons, List.map_nil, List.mem_singleton] at hp
  subst hp
  have he : encodeOK driverArgs = true := by decide
  simp [fixed_encode_block, he, Except.map, isOkE]

end MFA
